import Mathlib

/-!
# Arena allocator: address rounding, slot layout and size arithmetic

A shallow embedding of the compile-time and arithmetic parts of
`include/Arena.hxx`, `include/Allocator.hxx` and `include/MetaMinimal.hxx`.

Machine integers are natural numbers with explicit wrap-around:
`size_t`, `uintptr_t` and `uint64` are 64 bits wide, `uint32` is 32 bits wide
(the names come from `CommonTypes.hxx` and are read as the usual fixed-width
unsigned types; `sizeof(intptr_t)` is 8).
-/

namespace Arena

/-! ## Machine words -/

/-- Number of values of a 64-bit word (`size_t`, `uintptr_t`, `uint64`). -/
def word64 : Nat := 2 ^ 64

/-- Number of values of a 32-bit word (`uint32`). -/
def word32 : Nat := 2 ^ 32

/-- Bitwise complement `~x` of a 64-bit word. -/
def not64 (x : Nat) : Nat := word64 - 1 - x % word64

/-! ## `roundUpPtr` (Arena.hxx) -/

/-- The function `roundUpPtr(T* ptr, uint32 alignment)`.
The arguments are brought into the range of the parameter types on entry
(`uintptr_t` for the address, `uint32` for the alignment); then
`mask = alignment != 0 ? alignment - 1 : 0` and the result is
`(ptr + mask) & ~mask` in 64-bit arithmetic. -/
def roundUpPtr (ptr alignment : Nat) : Nat :=
  let p := ptr % word64
  let a := alignment % word32
  let mask := if a ≠ 0 then a - 1 else 0
  ((p + mask) % word64) &&& not64 mask

/-! ## `sized_integer` and `roundUp` (MetaMinimal.hxx) -/

/-- The metafunction `sized_integer<byteNumber>`: the width in bytes of the
unsigned integer type it names. Only the specialisations for 1, 2, 4 and 8
exist (`uint8`, `uint16`, `uint32`, `uint64`); for any other argument the
primary template is incomplete and there is no type. -/
def sized_integer (byteNumber : Nat) : Option Nat :=
  match byteNumber with
  | 1 => some 1
  | 2 => some 2
  | 4 => some 4
  | 8 => some 8
  | _ => none

/-- The metafunction `roundUp<num, pow2>::value`.
The specialisation for `pow2 = 0` is the identity; the one for
`pow2 = sizeof(size_t)*8 = 64` is `num & ~(max >> 1)`; the primary template
is `(num + mask) & ~mask` with `mask = (1 << pow2) - 1`. The shift is an
`int` expression, a constant expression only for `pow2 < 31`; beyond that
the instantiation is ill-formed and there is no value. -/
def roundUp (num pow2 : Nat) : Option Nat :=
  if pow2 = 0 then some (num % word64)
  else if pow2 = 64 then some ((num % word64) &&& not64 ((word64 - 1) >>> 1))
  else if pow2 < 31 then
    let mask := (1 <<< pow2) - 1
    some (((num % word64 + mask) % word64) &&& not64 mask)
  else none

/-! ## Template arguments of `ArenaAllocationPolicy` (Arena.hxx) -/

/-- The enumeration `AllocationType`. -/
inductive AllocationType where
  | Aligned
  | Unaligned
  deriving DecidableEq

/-- The enumeration `Safety`. -/
inductive Safety where
  | Enabled
  | Disabled
  deriving DecidableEq

/-- One instantiation of `ArenaAllocationPolicy<T, capacity, allocation,
safety, MemoryAllocator>`: what the class computes from `T` is `sizeof(T)`
and `alignof(T)`; from `MemoryAllocator` it reads
`BaseAllocator::alignment`. -/
structure Config where
  sizeofT : Nat
  alignofT : Nat
  capacity : Nat
  allocation : AllocationType
  safety : Safety
  baseAlignment : Nat
  deriving DecidableEq

/-! ## `Allocator` and `DefaultAllocationPolicy` (Allocator.hxx) -/

/-- The constant `DEFAULT_ALIGN`. -/
def DEFAULT_ALIGN : Nat := 1

/-- The trait `Allocator::get_alignment<Policy>::value`: the `alignment`
member of the policy when it declares one, `DEFAULT_ALIGN` otherwise. -/
def get_alignment (policyAlignment : Option Nat) : Nat :=
  match policyAlignment with
  | some a => a % word64
  | none => DEFAULT_ALIGN

/-- The member `Allocator::max_size()` for `size_type = size_t`:
`numeric_limits<size_type>::max() / sizeof(T)`. -/
def max_size (sizeofT : Nat) : Nat := (word64 - 1) / sizeofT

/-- The argument `size * sizeof(T)` that `DefaultAllocationPolicy::allocate`
hands to `malloc`, a `size_t` product. -/
def mallocArg (sizeofT size : Nat) : Nat :=
  ((size % word64) * (sizeofT % word64)) % word64

/-- The member `DefaultAllocationPolicy::allocate(size)`:
`malloc(size * sizeof(T))`, with `malloc` the process allocator. -/
def DefaultAllocationPolicy.allocate (malloc : Nat → Option Nat) (sizeofT size : Nat) :
    Option Nat :=
  malloc (mallocArg sizeofT size)

/-! ## `ArenaAllocationPolicy` (Arena.hxx) -/

namespace ArenaAllocationPolicy

/-- The `static_assert(capacity::value > 0, ...)` at the head of the class:
with a capacity of 0 the class does not compile. -/
def capacityCheck (cfg : Config) : Except String Unit :=
  if cfg.capacity > 0 then .ok ()
  else .error "Arena allocator with capacity of 0 is invalid !"

/-- The constant `alignment`: `alignof(T)` for `AllocationType::Aligned`,
`0` otherwise. -/
def alignment (cfg : Config) : Nat :=
  match cfg.allocation with
  | .Aligned => cfg.alignofT
  | .Unaligned => 0

/-- The constant `padding = (alignment > BaseAllocator::alignment ? alignment : 0)`. -/
def padding (cfg : Config) : Nat :=
  if alignment cfg > cfg.baseAlignment then alignment cfg else 0

/-- The constant `Node_::typeSize`: `sizeof(T)` when it is smaller than
`sizeof(intptr_t) = 8`, else 8. -/
def Node_.typeSize (cfg : Config) : Nat :=
  if cfg.sizeofT < 8 then cfg.sizeofT else 8

/-- The argument of `sized_integer_t` in the declaration of `Node_::offset_`:
`typeSize != 1 ? roundUp<typeSize, 1>::value : typeSize`. -/
def Node_.offsetBytes (cfg : Config) : Option Nat :=
  if Node_.typeSize cfg ≠ 1 then roundUp (Node_.typeSize cfg) 1
  else some (Node_.typeSize cfg)

/-- The width in bytes of the member `Node_::offset_`, when its type exists. -/
def Node_.offset_ (cfg : Config) : Option Nat :=
  (Node_.offsetBytes cfg).bind sized_integer

/-- Compiling one instantiation of the class, which is what a configuration
must pass before any member can be called. The `static_assert` is checked
first, when the class itself is instantiated; the union `Node_`, through
which every allocation and release goes, is completed next, and its member
`offset_` needs the type `sized_integer_t<...>` to exist. The result is the
width of the free link of the accepted configuration. -/
def instantiate (cfg : Config) : Except String Nat :=
  match capacityCheck cfg with
  | .error e => .error e
  | .ok _ =>
    match Node_.offset_ cfg with
    | some w => .ok w
    | none => .error "invalid use of incomplete type sized_integer"

end ArenaAllocationPolicy

end Arena

namespace Arena

/-! ## binary32 arithmetic used by `alignmentSpace`

`alignmentSpace` is computed in `float`: IEEE 754 binary32, a 24-bit
significand, results rounded to nearest with ties to even. The values met
here are non-negative and far from the exponent limits (operands are
64-bit integers), so a value is a significand and a binary exponent. -/

/-- Halving count: the position of the leading binary digit of `n`,
found in at most `fuel` halvings. -/
def ilog2 : Nat → Nat → Nat
  | 0, _ => 0
  | fuel + 1, n => if n < 2 then 0 else ilog2 fuel (n / 2) + 1

/-- Position of the leading binary digit of `n` (0 for `n = 0`). -/
def log2Floor (n : Nat) : Nat := ilog2 n n

/-- The integer nearest to `n / d`, ties going to the even neighbour. -/
def roundHalfEven (n d : Nat) : Nat :=
  let q := n / d
  let r := n % d
  if 2 * r < d then q
  else if d < 2 * r then q + 1
  else if q % 2 = 0 then q else q + 1

/-- A finite non-negative binary32 value `m * 2 ^ e`. -/
structure Float32 where
  m : Nat
  e : Int
  deriving DecidableEq

/-- The conversion `static_cast<float>(n)` of an unsigned integer: `n` itself
when it has at most 24 significant bits, else `n` rounded to 24 significant
bits. The result is again an integer. -/
def toFloat (n : Nat) : Nat :=
  if n < 2 ^ 24 then n
  else
    let sh := log2Floor n - 23
    roundHalfEven n (2 ^ sh) * 2 ^ sh

/-- The quotient `x / y` of two integer-valued binary32 numbers (`y > 0`):
the exponent `E` is that of the leading digit of the exact quotient
(`2 ^ E ≤ x / y < 2 ^ (E + 1)`), and the exact quotient scaled by
`2 ^ (23 - E)` is rounded to an integer significand. -/
def divFloat (x y : Nat) : Float32 :=
  if x = 0 then ⟨0, 0⟩
  else
    let lx := log2Floor x
    let ly := log2Floor y
    let E : Int := if y * 2 ^ lx ≤ x * 2 ^ ly then (lx : Int) - ly else (lx : Int) - ly - 1
    let t : Int := 23 - E
    let m := if 0 ≤ t then roundHalfEven (x * 2 ^ t.toNat) y
             else roundHalfEven x (y * 2 ^ (-t).toNat)
    ⟨m, -t⟩

/-- The function `std::ceil` on a binary32 value, as an integer. -/
def ceilFloat (f : Float32) : Nat :=
  if 0 ≤ f.e then f.m * 2 ^ f.e.toNat
  else (f.m + 2 ^ (-f.e).toNat - 1) / 2 ^ (-f.e).toNat

namespace ArenaAllocationPolicy

/-- The member `alignmentSpace =
std::ceil(static_cast<float>(alignment) / sizeof(T))`, stored in a `uint64`:
both operands are converted to `float`, divided in `float`, and the ceiling
is converted back. -/
def alignmentSpace (cfg : Config) : Nat :=
  ceilFloat (divFloat (toFloat (alignment cfg)) (toFloat cfg.sizeofT)) % word64

end ArenaAllocationPolicy

end Arena

namespace Arena

/-! ## Bit-level lemmas -/

theorem word64_pos : 0 < word64 := by unfold word64; positivity

theorem two_pow_pos_nat (k : Nat) : 0 < 2 ^ k := Nat.pow_pos (by norm_num)

/-- Masking a 64-bit word with the complement of `2 ^ k - 1` clears its low
`k` bits. -/
theorem and_not64_low_mask (x k : Nat) (hx : x < word64) (hk : k ≤ 64) :
    x &&& not64 (2 ^ k - 1) = 2 ^ k * (x / 2 ^ k) := by
  have hpos : 0 < 2 ^ k := two_pow_pos_nat k
  have hle : 2 ^ k ≤ 2 ^ 64 := Nat.pow_le_pow_right (by norm_num) hk
  have hm : 2 ^ k - 1 < 2 ^ 64 := by omega
  have hnot : not64 (2 ^ k - 1) = 2 ^ 64 - ((2 ^ k - 1) + 1) := by
    unfold not64 word64
    rw [Nat.mod_eq_of_lt hm]
    omega
  rw [hnot]
  apply Nat.eq_of_testBit_eq
  intro i
  rw [Nat.testBit_and, Nat.testBit_two_pow_sub_succ hm, Nat.testBit_two_pow_sub_one,
    Nat.testBit_mul_pow_two, ← Nat.shiftRight_eq_div_pow, Nat.testBit_shiftRight]
  by_cases hik : i < k
  · have : ¬ i ≥ k := by omega
    simp [hik, this]
  · have hge : i ≥ k := by omega
    have hadd : k + (i - k) = i := by omega
    by_cases hi : i < 64
    · simp [hik, hge, hi, hadd]
    · have hxi : x.testBit i = false := by
        apply Nat.testBit_lt_two_pow
        calc x < 2 ^ 64 := hx
          _ ≤ 2 ^ i := Nat.pow_le_pow_right (by norm_num) (by omega)
      simp [hge, hi, hadd, hxi]

/-- Closed form of `roundUpPtr` at a power-of-two alignment that fits `uint32`. -/
theorem roundUpPtr_pow_two (a k : Nat) (ha : a < word64) (hk : k < 32) :
    roundUpPtr a (2 ^ k) = 2 ^ k * (((a + (2 ^ k - 1)) % word64) / 2 ^ k) := by
  have hlt : 2 ^ k < 2 ^ 32 := Nat.pow_lt_pow_right (by norm_num) hk
  have hpos : 0 < 2 ^ k := two_pow_pos_nat k
  unfold roundUpPtr
  simp only [word32, Nat.mod_eq_of_lt hlt, Nat.mod_eq_of_lt ha]
  rw [if_pos (by omega)]
  exact and_not64_low_mask _ k (Nat.mod_lt _ word64_pos) (by omega)

/-- With alignment 0 the mask is 0 and the address comes back unchanged. -/
theorem roundUpPtr_zero (a : Nat) (ha : a < word64) : roundUpPtr a 0 = a := by
  have h := and_not64_low_mask a 0 ha (by omega)
  simp at h
  unfold roundUpPtr
  simp [word32, Nat.mod_eq_of_lt ha]
  simpa using h

/-- Only the low 32 bits of the alignment reach the body of `roundUpPtr`. -/
theorem roundUpPtr_alignment_mod (a A : Nat) :
    roundUpPtr a A = roundUpPtr a (A % word32) := by
  unfold roundUpPtr
  simp [Nat.mod_mod]

/-- A power of two at or above `2 ^ 32` is 0 as a `uint32`. -/
theorem two_pow_mod_word32 (k : Nat) (hk : 32 ≤ k) : 2 ^ k % word32 = 0 := by
  unfold word32
  exact Nat.mod_eq_zero_of_dvd (Nat.pow_dvd_pow 2 hk)

/-- Rounding down to a multiple of `2 ^ k` after adding `2 ^ k - 1` lands in
`[a, a + 2 ^ k)`. -/
theorem round_up_bounds (a d : Nat) (hd : 0 < d) :
    a ≤ d * ((a + (d - 1)) / d) ∧ d * ((a + (d - 1)) / d) < a + d := by
  have h1 := Nat.div_add_mod (a + (d - 1)) d
  have h2 := Nat.mod_lt (a + (d - 1)) hd
  constructor <;> omega

/-- In 64-bit pointer arithmetic the distance from an address to its
round-up is below the alignment. -/
theorem roundUpPtr_displacement (a k : Nat) (ha : a < word64) (hk : k < 32) :
    (roundUpPtr a (2 ^ k) + word64 - a) % word64 ≤ 2 ^ k - 1 := by
  have hpos : 0 < 2 ^ k := two_pow_pos_nat k
  have hlt : 2 ^ k < 2 ^ 32 := Nat.pow_lt_pow_right (by norm_num) hk
  rw [roundUpPtr_pow_two a k ha hk]
  by_cases hfit : a + (2 ^ k - 1) < word64
  · rw [Nat.mod_eq_of_lt hfit]
    have hb := round_up_bounds a (2 ^ k) hpos
    have : 2 ^ k * ((a + (2 ^ k - 1)) / 2 ^ k) + word64 - a
        = word64 + (2 ^ k * ((a + (2 ^ k - 1)) / 2 ^ k) - a) := by omega
    rw [this, Nat.add_mod_left]
    calc (2 ^ k * ((a + (2 ^ k - 1)) / 2 ^ k) - a) % word64
        ≤ 2 ^ k * ((a + (2 ^ k - 1)) / 2 ^ k) - a := Nat.mod_le _ _
      _ ≤ 2 ^ k - 1 := by omega
  · have hwrap : (a + (2 ^ k - 1)) % word64 = a + (2 ^ k - 1) - word64 := by
      have h64 : a + (2 ^ k - 1) < 2 * word64 := by unfold word64 at *; omega
      rw [Nat.mod_eq_sub_mod (by omega), Nat.mod_eq_of_lt (by omega)]
    rw [hwrap]
    have h1 := Nat.div_add_mod (a + (2 ^ k - 1) - word64) (2 ^ k)
    have h2 := Nat.mod_lt (a + (2 ^ k - 1) - word64) hpos
    calc (2 ^ k * ((a + (2 ^ k - 1) - word64) / 2 ^ k) + word64 - a) % word64
        ≤ 2 ^ k * ((a + (2 ^ k - 1) - word64) / 2 ^ k) + word64 - a := Nat.mod_le _ _
      _ ≤ 2 ^ k - 1 := by omega

end Arena

namespace Arena

open ArenaAllocationPolicy

/-! ## Address rounding -/

/-- C1: for an address `a` and a power-of-two alignment `A` (a `uint32`
value, as the parameter is declared) with `a + (A - 1)` inside the 64-bit
range, `roundUpPtr a A` is a multiple of `A`, lies in `[a, a + A)`, and is
the least multiple of `A` that is at least `a`. -/
theorem roundUpPtr_least_multiple (a A k : Nat) (hA : A = 2 ^ k) (h32 : A < word32)
    (hfit : a + (A - 1) < word64) :
    roundUpPtr a A % A = 0 ∧ a ≤ roundUpPtr a A ∧ roundUpPtr a A < a + A ∧
      ∀ m, m % A = 0 → a ≤ m → roundUpPtr a A ≤ m := by
  subst hA
  have hpos : 0 < 2 ^ k := two_pow_pos_nat k
  have hk : k < 32 := by
    unfold word32 at h32
    exact (Nat.pow_lt_pow_iff_right (by norm_num)).1 h32
  have ha : a < word64 := by omega
  rw [roundUpPtr_pow_two a k ha hk, Nat.mod_eq_of_lt hfit]
  have hb := round_up_bounds a (2 ^ k) hpos
  refine ⟨Nat.mul_mod_right _ _, hb.1, hb.2, ?_⟩
  intro m hm ham
  obtain ⟨c, rfl⟩ := Nat.dvd_of_mod_eq_zero hm
  apply Nat.mul_le_mul_left
  have h2 : (c + 1) * 2 ^ k = 2 ^ k * c + 2 ^ k := by ring
  have h3 : (a + (2 ^ k - 1)) / 2 ^ k < c + 1 :=
    (Nat.div_lt_iff_lt_mul hpos).2 (by omega)
  omega

/-- C1 at address 13 and alignment 8: the result 16 is the least multiple of
8 that is at least 13. -/
theorem roundUpPtr_least_multiple_witness :
    roundUpPtr 13 8 % 8 = 0 ∧ 13 ≤ roundUpPtr 13 8 ∧ roundUpPtr 13 8 < 13 + 8 ∧
      ∀ m, m % 8 = 0 → 13 ≤ m → roundUpPtr 13 8 ≤ m :=
  roundUpPtr_least_multiple 13 8 3 (by decide) (by decide) (by decide)

/-- C2: when the requested alignment `A = alignment` and the alignment `B`
of the backing allocator are powers of two with `padding = 0`, every 64-bit
base address that is a multiple of `B` is left unchanged by the aligned
path, `roundUpPtr base A = base`, as it is by the unaligned path,
`roundUpPtr base 0 = base`. -/
theorem roundUpPtr_degenerate (cfg : Config) (i j base : Nat)
    (hA : alignment cfg = 2 ^ i) (hB : cfg.baseAlignment = 2 ^ j)
    (hpad : padding cfg = 0) (hbase : base % cfg.baseAlignment = 0)
    (hlt : base < word64) :
    roundUpPtr base (alignment cfg) = base ∧ roundUpPtr base 0 = base := by
  refine ⟨?_, roundUpPtr_zero base hlt⟩
  have hpos : 0 < 2 ^ i := two_pow_pos_nat i
  have hle : 2 ^ i ≤ 2 ^ j := by
    unfold padding at hpad
    rw [hA, hB] at hpad
    by_contra hcon
    rw [if_pos (by omega)] at hpad
    omega
  have hij : i ≤ j := (Nat.pow_le_pow_iff_right (by norm_num)).1 hle
  rw [hA]
  by_cases hi : i < 32
  · rw [roundUpPtr_pow_two base i hlt hi]
    have hdvd : 2 ^ i ∣ base :=
      Nat.dvd_trans (Nat.pow_dvd_pow 2 hij) (hB ▸ Nat.dvd_of_mod_eq_zero hbase)
    obtain ⟨q, rfl⟩ := hdvd
    have h64 : word64 = 2 ^ i * 2 ^ (64 - i) := by
      unfold word64
      rw [← Nat.pow_add]
      congr 1
      omega
    have hq : q < 2 ^ (64 - i) := by
      rw [h64] at hlt
      exact Nat.lt_of_mul_lt_mul_left hlt
    have hfit : 2 ^ i * q + (2 ^ i - 1) < word64 := by
      have : 2 ^ i * (q + 1) ≤ 2 ^ i * 2 ^ (64 - i) := Nat.mul_le_mul_left _ hq
      have h2 : 2 ^ i * (q + 1) = 2 ^ i * q + 2 ^ i := by ring
      omega
    rw [Nat.mod_eq_of_lt hfit]
    congr 1
    rw [Nat.mul_add_div hpos, Nat.div_eq_of_lt (by omega)]
    omega
  · rw [roundUpPtr_alignment_mod, two_pow_mod_word32 i (by omega)]
    exact roundUpPtr_zero base hlt

/-- C2 at `alignof(T) = 8`, backing alignment 16 and base address 48. -/
theorem roundUpPtr_degenerate_witness :
    roundUpPtr 48 (alignment ⟨8, 8, 4096, .Aligned, .Enabled, 16⟩) = 48 ∧
      roundUpPtr 48 0 = 48 :=
  roundUpPtr_degenerate ⟨8, 8, 4096, .Aligned, .Enabled, 16⟩ 3 4 48
    (by decide) (by decide) (by decide) (by decide) (by decide)

end Arena

namespace Arena

open ArenaAllocationPolicy

/-! ## The free-link member `Node_::offset_` -/

/-- The width of `offset_` depends on `sizeof(T)` alone; this is its table
for the sizes below a pointer. -/
theorem offset_small_sizes (cfg : Config) (h1 : 1 ≤ cfg.sizeofT) (h8 : cfg.sizeofT < 8) :
    (cfg.sizeofT = 1 ∧ Node_.offset_ cfg = some 1) ∨
    (cfg.sizeofT = 2 ∧ Node_.offset_ cfg = some 2) ∨
    (cfg.sizeofT = 3 ∧ Node_.offset_ cfg = some 4) ∨
    (cfg.sizeofT = 4 ∧ Node_.offset_ cfg = some 4) ∨
    (cfg.sizeofT = 5 ∧ Node_.offset_ cfg = none) ∨
    (cfg.sizeofT = 6 ∧ Node_.offset_ cfg = none) ∨
    (cfg.sizeofT = 7 ∧ Node_.offset_ cfg = some 8) := by
  obtain ⟨s, al, cap, mode, safe, b⟩ := cfg
  simp only at h1 h8
  simp only [Node_.offset_, Node_.offsetBytes, Node_.typeSize]
  interval_cases s <;> decide

/-- From a pointer-sized element on, `offset_` is `uint64`. -/
theorem offset_large_sizes (cfg : Config) (h8 : 8 ≤ cfg.sizeofT) :
    Node_.offset_ cfg = some 8 := by
  have h : ¬ cfg.sizeofT < 8 := by omega
  simp only [Node_.offset_, Node_.offsetBytes, Node_.typeSize, if_neg h]
  decide

/-- C3, as stated, fails for a 3-byte element: `offset_` is then `uint32`,
4 bytes wide, so no link type of width at most 3 exists and the slot
`max 3 4` is 4 bytes. -/
theorem small_object_slot_counterexample :
    Node_.offset_ ⟨3, 1, 4096, .Aligned, .Enabled, 1⟩ = some 4 ∧
      ¬ (∃ w, Node_.offset_ ⟨3, 1, 4096, .Aligned, .Enabled, 1⟩ = some w ∧ w ≤ 3 ∧
          max 3 w = 3) := by
  decide

/-- C3, amended: for an element of 1, 2 or 4 bytes `offset_` is the unsigned
integer of exactly that many bytes, so the slot `max s w` is `s` bytes; for
an element of 3 or 7 bytes the link is the integer one byte wider and the
slot is `s + 1` bytes. -/
theorem small_object_slot (cfg : Config) (h1 : 1 ≤ cfg.sizeofT) (h8 : cfg.sizeofT < 8) :
    (cfg.sizeofT = 1 ∨ cfg.sizeofT = 2 ∨ cfg.sizeofT = 4 →
        ∃ w, Node_.offset_ cfg = some w ∧ w = cfg.sizeofT ∧ max cfg.sizeofT w = cfg.sizeofT) ∧
    (cfg.sizeofT = 3 ∨ cfg.sizeofT = 7 →
        ∃ w, Node_.offset_ cfg = some w ∧ w = cfg.sizeofT + 1 ∧
          max cfg.sizeofT w = cfg.sizeofT + 1) := by
  have h := offset_small_sizes cfg h1 h8
  constructor
  · intro hs
    refine ⟨cfg.sizeofT, ?_, rfl, Nat.max_self _⟩
    rcases h with h | h | h | h | h | h | h <;> rcases hs with hs | hs | hs <;>
      first
        | omega
        | (rw [h.2, h.1])
  · intro hs
    refine ⟨cfg.sizeofT + 1, ?_, rfl, by omega⟩
    rcases h with h | h | h | h | h | h | h <;> rcases hs with hs | hs <;>
      first
        | omega
        | (rw [h.2, h.1])

/-- C3 amended, at a 2-byte element: the link is `uint16` and the slot is 2
bytes. -/
theorem small_object_slot_witness :
    (∃ w, Node_.offset_ ⟨2, 2, 4096, .Aligned, .Enabled, 1⟩ = some w ∧ w = 2 ∧ max 2 w = 2) :=
  (small_object_slot ⟨2, 2, 4096, .Aligned, .Enabled, 1⟩ (by decide) (by decide)).1
    (Or.inr (Or.inl rfl))

/-- C4, as stated, fails for a 1-byte element with the default capacity of
4096: `offset_` is `uint8`, and 4096 exceeds `2 ^ 8`. It fails the other way
for an 8-byte element with capacity 1: `offset_` is `uint64` although one
byte would index the chunk. -/
theorem offset_indexes_chunk_counterexample :
    (Node_.offset_ ⟨1, 1, 4096, .Aligned, .Enabled, 1⟩ = some 1 ∧ ¬ (4096 ≤ 2 ^ (8 * 1))) ∧
    (Node_.offset_ ⟨8, 8, 1, .Aligned, .Enabled, 1⟩ = some 8 ∧ 1 ≤ 2 ^ (8 * 1)) := by
  decide

/-- C4, amended: the width `w` of `offset_` is fixed by `sizeof(T)` and never
by the capacity; whenever the type exists `w` is at least `min s 8`, so a
capacity `c ≤ 2 ^ (8 * min s 8)` satisfies `c ≤ 2 ^ (8 * w)`, and for
`s ≥ 8` the width is 8 and every 64-bit capacity does. -/
theorem offset_indexes_chunk (cfg : Config) (w : Nat) (hs : 1 ≤ cfg.sizeofT)
    (_hc : 0 < cfg.capacity) (hw : Node_.offset_ cfg = some w) :
    (∀ c, Node_.offset_ { cfg with capacity := c } = some w) ∧
    min cfg.sizeofT 8 ≤ w ∧
    (cfg.capacity ≤ 2 ^ (8 * min cfg.sizeofT 8) → cfg.capacity ≤ 2 ^ (8 * w)) ∧
    (8 ≤ cfg.sizeofT → w = 8 ∧ (cfg.capacity < word64 → cfg.capacity ≤ 2 ^ (8 * w))) := by
  have hmin : min cfg.sizeofT 8 ≤ w := by
    by_cases h8 : cfg.sizeofT < 8
    · have h := offset_small_sizes cfg hs h8
      rw [hw] at h
      rcases h with h | h | h | h | h | h | h <;> obtain ⟨ha, hb⟩ := h <;>
        first
          | (have hinj := Option.some.inj hb
             omega)
          | (exact absurd hb (by simp))
    · have h := offset_large_sizes cfg (by omega)
      rw [hw] at h
      simp only [Option.some.injEq] at h
      omega
  refine ⟨fun c => ?_, hmin, fun hcap => ?_, fun h8 => ?_⟩
  · rw [← hw]
    rfl
  · exact le_trans hcap (Nat.pow_le_pow_right (by norm_num) (by omega))
  · have h := offset_large_sizes cfg h8
    rw [hw] at h
    simp only [Option.some.injEq] at h
    refine ⟨h, fun h64 => ?_⟩
    subst h
    unfold word64 at h64
    exact le_of_lt h64

/-- C4 amended, at a 2-byte element with capacity 4096: the link is two
bytes wide and `4096 ≤ 2 ^ 16`. -/
theorem offset_indexes_chunk_witness :
    (∀ c, Node_.offset_ { ( ⟨2, 2, 4096, .Aligned, .Enabled, 1⟩ : Config) with capacity := c }
        = some 2) ∧
    min 2 8 ≤ 2 ∧ ((4096 : Nat) ≤ 2 ^ (8 * min 2 8) → (4096 : Nat) ≤ 2 ^ (8 * 2)) ∧
    ((8 : Nat) ≤ 2 → 2 = 8 ∧ ((4096 : Nat) < word64 → (4096 : Nat) ≤ 2 ^ (8 * 2))) :=
  offset_indexes_chunk ⟨2, 2, 4096, .Aligned, .Enabled, 1⟩ 2 (by decide) (by decide)
    (by decide)

end Arena

namespace Arena

open ArenaAllocationPolicy

/-! ## The constants `alignment` and `padding` -/

/-- C5: `padding` equals `alignment` when `alignment` exceeds the alignment
of the backing allocator and 0 otherwise, where `alignment` is `alignof(T)` in
Aligned mode and 0 in Unaligned mode; so `padding` is 0 in Unaligned mode and
whenever the backing alignment is at least `alignof(T)`. -/
theorem padding_reserved_only_when_needed (cfg : Config) :
    (alignment cfg = if cfg.allocation = .Aligned then cfg.alignofT else 0) ∧
    (alignment cfg > cfg.baseAlignment → padding cfg = alignment cfg) ∧
    (¬ alignment cfg > cfg.baseAlignment → padding cfg = 0) ∧
    (cfg.allocation = .Unaligned → padding cfg = 0) ∧
    (cfg.baseAlignment ≥ cfg.alignofT → padding cfg = 0) := by
  have hdef : alignment cfg = if cfg.allocation = .Aligned then cfg.alignofT else 0 := by
    unfold alignment
    cases cfg.allocation <;> simp
  refine ⟨hdef, fun h => ?_, fun h => ?_, fun h => ?_, fun h => ?_⟩
  · unfold padding
    rw [if_pos h]
  · unfold padding
    rw [if_neg h]
  · unfold padding
    rw [hdef, h]
    simp
  · unfold padding
    rw [hdef]
    split_ifs with h1 h2 <;> omega

/-- C5 at the default configuration of an 8-byte aligned element over the
default backing allocator (alignment 1): 8 slots of padding. -/
theorem padding_reserved_only_when_needed_witness :
    padding ⟨8, 8, 4096, .Aligned, .Enabled, get_alignment none⟩
      = alignment ⟨8, 8, 4096, .Aligned, .Enabled, get_alignment none⟩ :=
  (padding_reserved_only_when_needed
    ⟨8, 8, 4096, .Aligned, .Enabled, get_alignment none⟩).2.1 (by decide)

/-- In Aligned mode the constant `alignment` is `alignof(T)`; when that is a
power of two, `p & (alignment - 1)` is `p mod alignment` for every `p`. -/
theorem alignment_aligned_mask (cfg : Config) (k : Nat) (hT : cfg.alignofT = 2 ^ k)
    (hmode : cfg.allocation = .Aligned) :
    alignment cfg = 2 ^ k ∧ ∀ p, p &&& (alignment cfg - 1) = p % alignment cfg := by
  have ha : alignment cfg = 2 ^ k := by
    unfold alignment
    rw [hmode]
    exact hT
  refine ⟨ha, fun p => ?_⟩
  rw [ha]
  exact Nat.and_pow_two_sub_one_eq_mod p k

/-- C6: the constant `alignment` is not a power of two in every mode. For an
8-byte element in Unaligned mode with the safety checks enabled it is 0, no
power of two; the 64-bit mask `alignment - 1` is then all ones, so
`p & (alignment - 1)` is `p` itself (13 for `p = 13`) and there is no
modulus by `alignment` to compare it with. -/
theorem alignment_unaligned_not_power_of_two :
    alignment ⟨8, 8, 4096, .Unaligned, .Enabled, 1⟩ = 0 ∧
    (¬ ∃ k, alignment ⟨8, 8, 4096, .Unaligned, .Enabled, 1⟩ = 2 ^ k) ∧
    (alignment ⟨8, 8, 4096, .Unaligned, .Enabled, 1⟩ + word64 - 1) % word64 = word64 - 1 ∧
    13 &&& ((alignment ⟨8, 8, 4096, .Unaligned, .Enabled, 1⟩ + word64 - 1) % word64) = 13 := by
  refine ⟨rfl, ?_, by decide, by decide⟩
  rintro ⟨k, hk⟩
  have h0 : alignment ⟨8, 8, 4096, .Unaligned, .Enabled, 1⟩ = 0 := rfl
  rw [h0] at hk
  exact absurd hk.symm (Nat.pos_iff_ne_zero.1 (two_pow_pos_nat k))

/-! ## Sizes: `max_size` and the `malloc` argument -/

theorem mallocArg_eq (s n : Nat) (hs : s < word64) (hn : n < word64) :
    mallocArg s n = (n * s) % word64 := by
  unfold mallocArg
  rw [Nat.mod_eq_of_lt hs, Nat.mod_eq_of_lt hn]

theorem le_max_size_iff (s n : Nat) (hs : 1 ≤ s) : n ≤ max_size s ↔ n * s ≤ word64 - 1 := by
  unfold max_size
  exact Nat.le_div_iff_mul_le (by omega)

/-- C7, as stated, fails for `2 ^ 63` slots of a 2-byte element: the product
wraps to 0, so `malloc` is asked for 0 bytes, fewer than `2 ^ 63 * 2`. -/
theorem malloc_grant_counterexample :
    mallocArg 2 (2 ^ 63) = 0 ∧ ¬ (2 ^ 63 * 2 ≤ mallocArg 2 (2 ^ 63)) := by
  decide

/-- C7, amended: for a slot count `n` and an element size `s ≥ 1` (both
`size_t` values) the byte count handed to `malloc` is at least `n * s`
exactly when `n ≤ max_size()`, and then it equals `n * s`. -/
theorem malloc_grant (s n : Nat) (hs : 1 ≤ s) (hs64 : s < word64) (hn : n < word64) :
    (n * s ≤ mallocArg s n ↔ n ≤ max_size s) ∧
    (n ≤ max_size s → mallocArg s n = n * s) ∧
    (∀ malloc, DefaultAllocationPolicy.allocate malloc s n = malloc (mallocArg s n)) := by
  have hlt := Nat.mod_lt (n * s) word64_pos
  have hexact : n ≤ max_size s → mallocArg s n = n * s := by
    intro h
    rw [le_max_size_iff s n hs] at h
    rw [mallocArg_eq s n hs64 hn, Nat.mod_eq_of_lt (by omega)]
  refine ⟨⟨fun h => ?_, fun h => le_of_eq (hexact h).symm⟩, hexact, fun _ => rfl⟩
  rw [mallocArg_eq s n hs64 hn] at h
  rw [le_max_size_iff s n hs]
  omega

/-- C7 amended, at 10 slots of an 8-byte element: 80 bytes. -/
theorem malloc_grant_witness :
    (10 * 8 ≤ mallocArg 8 10 ↔ 10 ≤ max_size 8) ∧
    (10 ≤ max_size 8 → mallocArg 8 10 = 10 * 8) ∧
    (∀ malloc, DefaultAllocationPolicy.allocate malloc 8 10 = malloc (mallocArg 8 10)) :=
  malloc_grant 8 10 (by decide) (by decide) (by decide)

/-- C9: with `M = max_size() = (2 ^ 64 - 1) / s` for an element size
`s ≥ 1`, every `n ≤ M` has `n * s ≤ 2 ^ 64 - 1`, so the product computed by
`DefaultAllocationPolicy::allocate` does not wrap, and `(M + 1) * s`
exceeds `2 ^ 64 - 1`. -/
theorem max_size_exact (s : Nat) (hs : 1 ≤ s) :
    (∀ n, n ≤ max_size s → n * s ≤ word64 - 1 ∧ mallocArg s n = n * s) ∧
    (max_size s + 1) * s > word64 - 1 := by
  constructor
  · intro n hn
    have hle := (le_max_size_iff s n hs).1 hn
    refine ⟨hle, ?_⟩
    have hw := word64_pos
    by_cases hn0 : n = 0
    · subst hn0
      simp [mallocArg]
    · have hn1 : n ≤ n * s := Nat.le_mul_of_pos_right n hs
      have hs1 : s ≤ n * s := Nat.le_mul_of_pos_left s (by omega)
      unfold mallocArg
      rw [Nat.mod_eq_of_lt (by omega : n < word64), Nat.mod_eq_of_lt (by omega : s < word64),
        Nat.mod_eq_of_lt (by omega)]
  · unfold max_size
    have h2 : word64 - 1 < ((word64 - 1) / s + 1) * s := by
      rw [Nat.mul_comm]
      exact Nat.lt_mul_div_succ _ (by omega)
    exact h2

/-- C9 at an element size of 8 bytes. -/
theorem max_size_exact_witness :
    (∀ n, n ≤ max_size 8 → n * 8 ≤ word64 - 1 ∧ mallocArg 8 n = n * 8) ∧
    (max_size 8 + 1) * 8 > word64 - 1 :=
  max_size_exact 8 (by decide)

/-! ## The capacity check -/

/-- With a capacity of 0 the `static_assert` stops the instantiation, whatever
the element type, the allocation mode, the safety mode and the backing
allocator. -/
theorem instantiate_capacity_zero (cfg : Config) (h : cfg.capacity = 0) :
    instantiate cfg = .error "Arena allocator with capacity of 0 is invalid !" := by
  unfold instantiate capacityCheck
  rw [if_neg (by omega)]

/-- A configuration is accepted exactly when the capacity is positive and the
free-link type exists. -/
theorem instantiate_ok_iff (cfg : Config) :
    (∃ w, instantiate cfg = .ok w) ↔ 0 < cfg.capacity ∧ ∃ w, Node_.offset_ cfg = some w := by
  unfold instantiate capacityCheck
  by_cases hc : cfg.capacity > 0
  · rw [if_pos hc]
    cases hoff : Node_.offset_ cfg with
    | none => simp
    | some w => simp [hc]
  · rw [if_neg hc]
    simp [hc]

end Arena

namespace Arena

open ArenaAllocationPolicy

/-! ## binary32 lemmas -/

theorem ilog2_spec (fuel : Nat) : ∀ n, n ≠ 0 → n < 2 ^ fuel →
    2 ^ ilog2 fuel n ≤ n ∧ n < 2 ^ (ilog2 fuel n + 1) := by
  induction fuel with
  | zero =>
    intro n hn hlt
    simp at hlt
    exact absurd hlt hn
  | succ f ih =>
    intro n hn hlt
    unfold ilog2
    by_cases h2 : n < 2
    · rw [if_pos h2]
      constructor <;> simp <;> omega
    · rw [if_neg h2]
      have hhalf : n / 2 < 2 ^ f := by
        rw [Nat.pow_succ] at hlt
        omega
      obtain ⟨h1, h3⟩ := ih (n / 2) (by omega) hhalf
      rw [Nat.pow_succ, Nat.pow_succ]
      constructor <;> omega

theorem log2Floor_spec (n : Nat) (hn : n ≠ 0) :
    2 ^ log2Floor n ≤ n ∧ n < 2 ^ (log2Floor n + 1) :=
  ilog2_spec n n hn (Nat.lt_two_pow n)

theorem log2Floor_mono (a b : Nat) (ha : a ≠ 0) (hab : a ≤ b) :
    log2Floor a ≤ log2Floor b := by
  have h1 := (log2Floor_spec a ha).1
  have h2 := (log2Floor_spec b (by omega)).2
  have h3 : 2 ^ log2Floor a < 2 ^ (log2Floor b + 1) := by omega
  have := (Nat.pow_lt_pow_iff_right (by norm_num : 1 < 2)).1 h3
  omega

theorem le_log2Floor (k s : Nat) (h : 2 ^ k ≤ s) : k ≤ log2Floor s := by
  have hpos := two_pow_pos_nat k
  have h2 := (log2Floor_spec s (by omega)).2
  have h3 : 2 ^ k < 2 ^ (log2Floor s + 1) := by omega
  have := (Nat.pow_lt_pow_iff_right (by norm_num : 1 < 2)).1 h3
  omega

theorem log2Floor_two_pow (k : Nat) : log2Floor (2 ^ k) = k := by
  have hpos := two_pow_pos_nat k
  have h1 := (log2Floor_spec (2 ^ k) (by omega)).1
  have h2 := le_log2Floor k (2 ^ k) (le_refl _)
  have := (Nat.pow_le_pow_iff_right (by norm_num : 1 < 2)).1 h1
  omega

theorem div_le_roundHalfEven (n d : Nat) : n / d ≤ roundHalfEven n d := by
  unfold roundHalfEven
  simp only
  split_ifs <;> omega

theorem roundHalfEven_le (n d N : Nat) (hd : 0 < d) (h : n ≤ N * d) :
    roundHalfEven n d ≤ N := by
  have hq : n / d ≤ N := Nat.div_le_of_le_mul (by rw [Nat.mul_comm]; exact h)
  by_cases hlt : n / d < N
  · unfold roundHalfEven
    simp only
    split_ifs <;> omega
  · have hqN : n / d = N := by omega
    have hr : n % d = 0 := by
      have h1 := Nat.div_add_mod n d
      rw [hqN, Nat.mul_comm] at h1
      omega
    unfold roundHalfEven
    simp only
    rw [hr, if_pos (by omega)]
    omega

theorem roundHalfEven_mul (k d : Nat) (hd : 0 < d) : roundHalfEven (k * d) d = k := by
  unfold roundHalfEven
  simp only
  rw [Nat.mul_mod_left, Nat.mul_div_cancel k hd, if_pos (by omega)]

theorem toFloat_two_pow (k : Nat) : toFloat (2 ^ k) = 2 ^ k := by
  unfold toFloat
  by_cases h : 2 ^ k < 2 ^ 24
  · rw [if_pos h]
  · rw [if_neg h]
    simp only
    rw [log2Floor_two_pow]
    have hk : 24 ≤ k := by
      by_contra hcon
      exact h (Nat.pow_lt_pow_right (by norm_num) (by omega))
    have hsplit : 2 ^ k = 2 ^ 23 * 2 ^ (k - 23) := by
      rw [← Nat.pow_add]
      congr 1
      omega
    rw [hsplit, roundHalfEven_mul _ _ (two_pow_pos_nat _)]

theorem two_pow_le_toFloat (k s : Nat) (h : 2 ^ k ≤ s) : 2 ^ k ≤ toFloat s := by
  unfold toFloat
  by_cases h24 : s < 2 ^ 24
  · rw [if_pos h24]
    exact h
  · rw [if_neg h24]
    simp only
    have hl : 24 ≤ log2Floor s := le_log2Floor 24 s (by omega)
    have hkl : k ≤ log2Floor s := le_log2Floor k s h
    have hspec := (log2Floor_spec s (by omega)).1
    have hpos := two_pow_pos_nat (log2Floor s - 23)
    have hsplit : 2 ^ log2Floor s = 2 ^ 23 * 2 ^ (log2Floor s - 23) := by
      rw [← Nat.pow_add]
      congr 1
      omega
    have hq : 2 ^ 23 ≤ s / 2 ^ (log2Floor s - 23) := by
      rw [Nat.le_div_iff_mul_le hpos, ← hsplit]
      exact hspec
    calc 2 ^ k ≤ 2 ^ log2Floor s := Nat.pow_le_pow_right (by norm_num) hkl
      _ = 2 ^ 23 * 2 ^ (log2Floor s - 23) := hsplit
      _ ≤ roundHalfEven s (2 ^ (log2Floor s - 23)) * 2 ^ (log2Floor s - 23) :=
          Nat.mul_le_mul_right _ (le_trans hq (div_le_roundHalfEven _ _))

theorem ceilFloat_divFloat_zero (y : Nat) : ceilFloat (divFloat 0 y) = 0 := by
  simp [divFloat, ceilFloat]

/-- A quotient of two positive binary32 integers with the divisor at least
the dividend lies in `(0, 1]`, so its ceiling is 1. -/
theorem ceilFloat_divFloat_le (x y : Nat) (hx : 0 < x) (hxy : x ≤ y) :
    ceilFloat (divFloat x y) = 1 := by
  have hx0 : x ≠ 0 := by omega
  have hlx := log2Floor_spec x hx0
  have hly := log2Floor_spec y (by omega)
  have hmono := log2Floor_mono x y hx0 hxy
  unfold divFloat
  rw [if_neg hx0]
  simp only
  generalize hE : (if y * 2 ^ log2Floor x ≤ x * 2 ^ log2Floor y
    then (log2Floor x : Int) - log2Floor y else (log2Floor x : Int) - log2Floor y - 1) = E
  have hElo : (log2Floor x : Int) - log2Floor y - 1 ≤ E := by
    rw [← hE]; split_ifs <;> omega
  have hEhi : E ≤ (log2Floor x : Int) - log2Floor y := by
    rw [← hE]; split_ifs <;> omega
  have ht : (0 : Int) ≤ 23 - E := by omega
  rw [if_pos ht]
  obtain ⟨T, hT⟩ := Int.eq_ofNat_of_zero_le ht
  rw [hT]
  have hT23 : 23 + log2Floor y ≤ T + log2Floor x := by omega
  have hypos : 0 < y := by omega
  have hTpos := two_pow_pos_nat T
  -- the significand lies in [1, 2 ^ T]
  have hmle : roundHalfEven (x * 2 ^ T) y ≤ 2 ^ T :=
    roundHalfEven_le _ _ _ hypos (by rw [Nat.mul_comm]; exact Nat.mul_le_mul_left _ hxy)
  have hbig : y ≤ x * 2 ^ T := by
    have h1 : 2 ^ (log2Floor y + 1) ≤ 2 ^ (log2Floor x + T) :=
      Nat.pow_le_pow_right (by norm_num) (by omega)
    have h2 : 2 ^ (log2Floor x + T) = 2 ^ log2Floor x * 2 ^ T := Nat.pow_add _ _ _
    have h3 : 2 ^ log2Floor x * 2 ^ T ≤ x * 2 ^ T := Nat.mul_le_mul_right _ hlx.1
    omega
  have hmpos : 1 ≤ roundHalfEven (x * 2 ^ T) y :=
    le_trans ((Nat.le_div_iff_mul_le hypos).2 (by omega)) (div_le_roundHalfEven _ _)
  unfold ceilFloat
  simp only [Int.toNat_ofNat]
  have hneg : ¬ (0 : Int) ≤ -(T : Int) := by omega
  rw [if_neg hneg]
  simp only [neg_neg, Int.toNat_ofNat]
  exact Nat.div_eq_of_lt_le (by omega) (by omega)

end Arena

namespace Arena

open ArenaAllocationPolicy

theorem succ_le_roundHalfEven (n d N z : Nat) (hd : 0 < d) (hn : N * d + z ≤ n)
    (hz : d < 2 * z) : N + 1 ≤ roundHalfEven n d := by
  have hq : N ≤ n / d := (Nat.le_div_iff_mul_le hd).2 (by omega)
  by_cases hlt : N < n / d
  · exact le_trans hlt (div_le_roundHalfEven n d)
  · have hqN : n / d = N := by omega
    have h1 := Nat.div_add_mod n d
    rw [hqN, Nat.mul_comm] at h1
    unfold roundHalfEven
    simp only
    rw [if_neg (by omega), if_pos (by omega)]
    omega

/-- Ceiling of a significand over `2 ^ T` when the significand is pinned
between `(c - 1) * 2 ^ T + 1` and `c * 2 ^ T`. -/
theorem ceilFloat_pinned (m T c : Nat) (hc : 1 ≤ c) (hlo : (c - 1) * 2 ^ T + 1 ≤ m)
    (hhi : m ≤ c * 2 ^ T) : ceilFloat ⟨m, -(T : Int)⟩ = c := by
  have hTpos := two_pow_pos_nat T
  have hsplit : c * 2 ^ T = (c - 1) * 2 ^ T + 2 ^ T := by
    have : c = (c - 1) + 1 := by omega
    conv_lhs => rw [this]
    ring
  unfold ceilFloat
  simp only
  by_cases hT0 : T = 0
  · subst hT0
    simp at hlo hhi ⊢
    omega
  · have hneg : ¬ (0 : Int) ≤ -(T : Int) := by omega
    rw [if_neg hneg]
    simp only [neg_neg, Int.toNat_ofNat]
    have hsucc : (c + 1) * 2 ^ T = c * 2 ^ T + 2 ^ T := by ring
    exact Nat.div_eq_of_lt_le (by omega) (by omega)

/-- Below `2 ^ 24` both operands are exact, and the rounding of the quotient
cannot move it across an integer: the ceiling of the binary32 quotient of a
power of two by a smaller divisor is the exact ceiling. -/
theorem ceilFloat_divFloat_small (k y : Nat) (hk : k ≤ 23) (hy : 0 < y) (hyx : y < 2 ^ k) :
    ceilFloat (divFloat (2 ^ k) y) = (2 ^ k + y - 1) / y := by
  have hxpos := two_pow_pos_nat k
  have hx0 : (2 : Nat) ^ k ≠ 0 := by omega
  have hly := log2Floor_spec y (by omega)
  have hlyk : log2Floor y < k := by
    have h3 : 2 ^ log2Floor y < 2 ^ k := by omega
    exact (Nat.pow_lt_pow_iff_right (by norm_num : 1 < 2)).1 h3
  -- the exact ceiling `c`
  have hc1 : 1 ≤ (2 ^ k + y - 1) / y := (Nat.le_div_iff_mul_le hy).2 (by omega)
  have hcu : 2 ^ k ≤ (2 ^ k + y - 1) / y * y := by
    have h1 := Nat.div_add_mod (2 ^ k + y - 1) y
    have h2 := Nat.mod_lt (2 ^ k + y - 1) hy
    rw [Nat.mul_comm] at h1
    omega
  have hcl : ((2 ^ k + y - 1) / y - 1) * y + 1 ≤ 2 ^ k := by
    have h1 := Nat.div_add_mod (2 ^ k + y - 1) y
    rw [Nat.mul_comm] at h1
    have h3 : (2 ^ k + y - 1) / y * y = ((2 ^ k + y - 1) / y - 1) * y + y := by
      have : (2 ^ k + y - 1) / y = ((2 ^ k + y - 1) / y - 1) + 1 := by omega
      conv_lhs => rw [this]
      ring
    omega
  generalize (2 ^ k + y - 1) / y = c at hc1 hcu hcl ⊢
  unfold divFloat
  rw [if_neg hx0]
  simp only
  rw [log2Floor_two_pow]
  -- the exponent and the scaling `T = 23 - E`, with `y ≤ 2 ^ T`
  have hT : ∃ T : Nat, (23 : Int) - (if y * 2 ^ k ≤ 2 ^ k * 2 ^ log2Floor y
      then (k : Int) - log2Floor y else (k : Int) - log2Floor y - 1) = T ∧ y ≤ 2 ^ T := by
    by_cases hcond : y * 2 ^ k ≤ 2 ^ k * 2 ^ log2Floor y
    · rw [if_pos hcond]
      refine ⟨23 - (k - log2Floor y), by omega, ?_⟩
      have hyle : y ≤ 2 ^ log2Floor y := by
        rw [Nat.mul_comm] at hcond
        exact Nat.le_of_mul_le_mul_left hcond hxpos
      exact le_trans hyle (Nat.pow_le_pow_right (by norm_num) (by omega))
    · rw [if_neg hcond]
      refine ⟨24 - (k - log2Floor y), by omega, ?_⟩
      exact le_trans (le_of_lt hly.2) (Nat.pow_le_pow_right (by norm_num) (by omega))
  obtain ⟨T, hTeq, hyT⟩ := hT
  rw [hTeq, if_pos (by omega)]
  simp only [Int.toNat_ofNat]
  have hTpos := two_pow_pos_nat T
  apply ceilFloat_pinned _ T c hc1
  · have hn : (c - 1) * 2 ^ T * y + 2 ^ T ≤ 2 ^ k * 2 ^ T := by
      have := Nat.mul_le_mul_right (2 ^ T) hcl
      have h2 : ((c - 1) * y + 1) * 2 ^ T = (c - 1) * 2 ^ T * y + 2 ^ T := by ring
      omega
    exact succ_le_roundHalfEven _ _ _ _ hy hn (by omega)
  · apply roundHalfEven_le _ _ _ hy
    have := Nat.mul_le_mul_right (2 ^ T) hcu
    have h2 : c * y * 2 ^ T = c * 2 ^ T * y := by ring
    omega

theorem toFloat_small (n : Nat) (h : n < 2 ^ 24) : toFloat n = n := by
  unfold toFloat
  rw [if_pos h]

/-- In 64-bit pointer arithmetic the distance from a base address to its
round-up is below the alignment, and 0 when the alignment is 0 or does not
fit `uint32`. -/
theorem roundUpPtr_displacement_lt (base A : Nat) (hbase : base < word64)
    (hpow : A = 0 ∨ ∃ k, A = 2 ^ k) :
    (roundUpPtr base A + word64 - base) % word64 ≤ A - 1 := by
  have hzero : (roundUpPtr base 0 + word64 - base) % word64 = 0 := by
    rw [roundUpPtr_zero base hbase]
    have : base + word64 - base = word64 := by omega
    rw [this, Nat.mod_self]
  rcases hpow with h0 | ⟨k, hk⟩
  · subst h0
    omega
  · subst hk
    by_cases hk32 : k < 32
    · exact roundUpPtr_displacement base k hbase hk32
    · rw [roundUpPtr_alignment_mod, two_pow_mod_word32 k (by omega), hzero]
      omega

end Arena

namespace Arena

open ArenaAllocationPolicy

/-! ## `alignmentSpace` -/

/-- Within the stated domain the binary32 computation of `alignmentSpace`
returns the exact ceiling of `alignment / sizeof(T)`. -/
theorem alignmentSpace_eq_ceil (cfg : Config) (hs : 1 ≤ cfg.sizeofT)
    (hpow : alignment cfg = 0 ∨ ∃ k, alignment cfg = 2 ^ k)
    (hdom : alignment cfg ≤ cfg.sizeofT ∨ alignment cfg < 2 ^ 24) :
    alignmentSpace cfg = (alignment cfg + cfg.sizeofT - 1) / cfg.sizeofT := by
  unfold alignmentSpace
  rcases hpow with h0 | ⟨k, hk⟩
  · rw [h0]
    have h1 : toFloat 0 = 0 := by decide
    rw [h1, ceilFloat_divFloat_zero, Nat.zero_mod]
    exact (Nat.div_eq_of_lt (by omega)).symm
  · rw [hk, toFloat_two_pow]
    have hApos := two_pow_pos_nat k
    by_cases hle : 2 ^ k ≤ cfg.sizeofT
    · rw [ceilFloat_divFloat_le _ _ hApos (two_pow_le_toFloat k _ hle)]
      have h1 : 1 % word64 = 1 := by decide
      rw [h1]
      exact (Nat.div_eq_of_lt_le (by omega) (by omega)).symm
    · have h24 : 2 ^ k < 2 ^ 24 := by
        rcases hdom with h | h
        · rw [hk] at h
          exact absurd h hle
        · rw [hk] at h
          exact h
      have hk23 : k ≤ 23 := by
        have := (Nat.pow_lt_pow_iff_right (by norm_num : 1 < 2)).1 h24
        omega
      rw [toFloat_small _ (by omega), ceilFloat_divFloat_small k _ hk23 hs (by omega)]
      apply Nat.mod_eq_of_lt
      have hdiv : (2 ^ k + cfg.sizeofT - 1) / cfg.sizeofT ≤ 2 ^ k + cfg.sizeofT - 1 :=
        Nat.div_le_self _ _
      unfold word64
      omega

/-- Where the alignment is at most the element size, or below `2 ^ 24`,
`alignmentSpace` is the exact ceiling and covers the distance from a base
address to its round-up. -/
theorem alignmentSpace_bound (cfg : Config) (hs : 1 ≤ cfg.sizeofT)
    (hpow : alignment cfg = 0 ∨ ∃ k, alignment cfg = 2 ^ k)
    (hdom : alignment cfg ≤ cfg.sizeofT ∨ alignment cfg < 2 ^ 24) :
    alignmentSpace cfg = (alignment cfg + cfg.sizeofT - 1) / cfg.sizeofT ∧
    (cfg.allocation = .Unaligned → alignmentSpace cfg = 0) ∧
    ∀ base, base < word64 →
      (roundUpPtr base (alignment cfg) + word64 - base) % word64
        ≤ alignmentSpace cfg * cfg.sizeofT := by
  have hAS := alignmentSpace_eq_ceil cfg hs hpow hdom
  refine ⟨hAS, fun hmode => ?_, fun base hbase => ?_⟩
  · have h0 : alignment cfg = 0 := by
      unfold alignment
      rw [hmode]
    rw [hAS, h0]
    exact Nat.div_eq_of_lt (by omega)
  · have hd := roundUpPtr_displacement_lt base (alignment cfg) hbase hpow
    have h1 := Nat.div_add_mod (alignment cfg + cfg.sizeofT - 1) cfg.sizeofT
    have h2 := Nat.mod_lt (alignment cfg + cfg.sizeofT - 1) hs
    rw [hAS, Nat.mul_comm]
    omega

/-- The constant `alignment` never exceeds the size of an element whose size
is a multiple of its alignment. -/
theorem alignment_le_sizeof (cfg : Config) (hs : 1 ≤ cfg.sizeofT)
    (hdvd : cfg.alignofT ∣ cfg.sizeofT) : alignment cfg ≤ cfg.sizeofT := by
  unfold alignment
  cases cfg.allocation with
  | Aligned => exact Nat.le_of_dvd (by omega) hdvd
  | Unaligned => exact Nat.zero_le _

/-- C10: for every element type (size `s ≥ 1`, a multiple of its alignment, as
the size of every object type is), in either mode, with the constant
`alignment` 0 or a power of two, `alignmentSpace` as computed in binary32 is
the ceiling of `alignment / s` (0 in Unaligned mode), and for every 64-bit
base address the distance from the base to `roundUpPtr base alignment`, in
pointer arithmetic, is at most `alignmentSpace * s`. -/
theorem alignmentSpace_covers_rounding (cfg : Config) (hs : 1 ≤ cfg.sizeofT)
    (hpow : alignment cfg = 0 ∨ ∃ k, alignment cfg = 2 ^ k)
    (hdvd : cfg.alignofT ∣ cfg.sizeofT) :
    alignmentSpace cfg = (alignment cfg + cfg.sizeofT - 1) / cfg.sizeofT ∧
    (cfg.allocation = .Unaligned → alignmentSpace cfg = 0) ∧
    ∀ base, base < word64 →
      (roundUpPtr base (alignment cfg) + word64 - base) % word64
        ≤ alignmentSpace cfg * cfg.sizeofT :=
  alignmentSpace_bound cfg hs hpow (Or.inl (alignment_le_sizeof cfg hs hdvd))

/-- C10 at a 24-byte element aligned to 8: `alignmentSpace` is 1, and the one
extra slot covers the 3 bytes by which the base address 13 is moved. -/
theorem alignmentSpace_covers_rounding_witness :
    alignmentSpace ⟨24, 8, 4096, .Aligned, .Enabled, 1⟩ = (8 + 24 - 1) / 24 ∧
    (roundUpPtr 13 (alignment ⟨24, 8, 4096, .Aligned, .Enabled, 1⟩) + word64 - 13) % word64
      ≤ alignmentSpace ⟨24, 8, 4096, .Aligned, .Enabled, 1⟩ * 24 :=
  have h := alignmentSpace_covers_rounding ⟨24, 8, 4096, .Aligned, .Enabled, 1⟩
    (by decide) (Or.inr ⟨3, by decide⟩) ⟨3, by decide⟩
  ⟨h.1, h.2.2 13 (by decide)⟩

end Arena
